import Mathlib

/-!
Verification of the super-soundboard-standalone bot core.

The program is a voice-channel soundboard bot: it recognizes spoken
fragments per speaker, matches them against a hot-reloadable keyword
table, rate-limits accepted triggers per speaker, and serializes
playback through a single FIFO queue.  This file shallow-embeds the
pure decision logic of `bot-node/src/index.ts` and the read-only API
server, and proves the stated properties about it.

Conventions of the embedding:
- JS strings are `List Char`; `String.prototype.toLowerCase` becomes
  `toLowerStr` (per-character fold); `String.prototype.includes`
  becomes `includesStr`.
- JS numbers holding millisecond timestamps (`Date.now()`) and the
  configured `cooldownMs` are `ℤ`; gain factors are `ℚ` (the values at
  stake are exact decimals, so rational arithmetic models them).
- Platform calls (`fs.existsSync`, `JSON.parse`) appear as explicit
  function parameters of the embedded operations.
-/

namespace SoundBot

/-! ### Strings: case folding and substring containment -/

/-- `String.prototype.toLowerCase`, modelled as a per-character fold. -/
def toLowerStr (s : List Char) : List Char := s.map Char.toLower

/-- Whether `s` starts with the pattern `p` (helper for `includesStr`). -/
def startsWithStr : List Char → List Char → Bool
  | _, [] => true
  | [], _ :: _ => false
  | c :: s, d :: p => (c == d) && startsWithStr s p

/-- `String.prototype.includes`: whether `p` occurs contiguously in `s`. -/
def includesStr : List Char → List Char → Bool
  | [], p => startsWithStr [] p
  | c :: t, p => startsWithStr (c :: t) p || includesStr t p

/-- Specification-level substring containment: `p` is a contiguous
segment of `s`. -/
def isSubstring (p s : List Char) : Prop := ∃ l r, s = l ++ p ++ r

theorem startsWithStr_iff (s p : List Char) :
    startsWithStr s p = true ↔ ∃ r, s = p ++ r := by
  induction p generalizing s with
  | nil => simp [startsWithStr]
  | cons d p ih =>
    cases s with
    | nil => simp [startsWithStr]
    | cons c s =>
      simp only [startsWithStr, Bool.and_eq_true, beq_iff_eq, ih,
        List.cons_append, List.cons.injEq]
      constructor
      · rintro ⟨h1, r, h2⟩
        exact ⟨r, h1, h2⟩
      · rintro ⟨r, h1, h2⟩
        exact ⟨h1, r, h2⟩

theorem includesStr_iff (s p : List Char) :
    includesStr s p = true ↔ isSubstring p s := by
  unfold isSubstring
  induction s with
  | nil =>
    simp only [includesStr, startsWithStr_iff]
    constructor
    · rintro ⟨r, h⟩
      exact ⟨[], r, by simpa using h⟩
    · rintro ⟨l, r, h⟩
      have h' : l = [] ∧ p = [] ∧ r = [] := by simpa using h.symm
      exact ⟨[], by simp [h'.2.1]⟩
  | cons c t ih =>
    simp only [includesStr, Bool.or_eq_true, startsWithStr_iff, ih]
    constructor
    · rintro (⟨r, h⟩ | ⟨l, r, h⟩)
      · exact ⟨[], r, by simpa using h⟩
      · exact ⟨c :: l, r, by simp [h]⟩
    · rintro ⟨l, r, h⟩
      cases l with
      | nil => exact Or.inl ⟨r, by simpa using h⟩
      | cons x l =>
        right
        simp only [List.cons_append, List.cons.injEq] at h
        exact ⟨l, r, h.2⟩

/-- `isSubstring` is decidable through `includesStr`. -/
instance (p s : List Char) : Decidable (isSubstring p s) :=
  decidable_of_iff (includesStr s p = true) (includesStr_iff s p)

/-! ### The mapping table (`SoundMapping`, `ResolvedMapping`) -/

/-- A raw mapping as persisted in `config.json`: keyword list, sound
file name, optional volume in percent (0-200). -/
structure SoundMapping where
  keywords : List (List Char)
  file : List Char
  volume : Option ℚ
deriving DecidableEq

/-- A mapping after `reloadConfig` resolved it: the volume is a linear
gain factor and the file name is resolved to a path. -/
structure ResolvedMapping where
  keywords : List (List Char)
  file : List Char
  filePath : List Char
  volume : ℚ
deriving DecidableEq

/-- The persisted application configuration shape. -/
structure AppConfig where
  mappings : List SoundMapping
  cooldownMs : ℤ
  lang : Option (List Char)
deriving DecidableEq

/-- `path.join(dir, name)` for a `name` that is a plain component:
no normalization is involved, so it is concatenation with a separator. -/
def pathJoin (dir name : List Char) : List Char := dir ++ '/' :: name

/-- The test `path.isAbsolute(file) || file.startsWith("./") ||
file.startsWith("../")` of `reloadConfig`. -/
def keepsOwnPath (file : List Char) : Bool :=
  startsWithStr file ['/'] || startsWithStr file ['.', '/'] ||
    startsWithStr file ['.', '.', '/']

/-- The volume resolution inside `reloadConfig`:
`const volPercent = m.volume ?? 100; const volFloat = Math.max(0, volPercent / 100)`.
Note that only the lower bound is clamped. -/
def resolveVolume (raw : Option ℚ) : ℚ := max 0 (raw.getD 100 / 100)

/-- Mapping resolution inside `reloadConfig`: resolve the volume and
join plain file names with the sounds directory. -/
def resolveMapping (soundsDir : List Char) (m : SoundMapping) : ResolvedMapping :=
  { keywords := m.keywords
    file := m.file
    filePath := if keepsOwnPath m.file then m.file else pathJoin soundsDir m.file
    volume := resolveVolume m.volume }

/-! ### Matching (`normalizeKeyword`, `getMappingForText`) -/

/-- `const normalizeKeyword = (keyword) => keyword.toLowerCase()`. -/
def normalizeKeyword (keyword : List Char) : List Char := toLowerStr keyword

/-- The predicate `getMappingForText` scans with: some keyword of `m`,
case-folded, occurs in the normalized fragment. -/
def keywordHit (normalized : List Char) (m : ResolvedMapping) : Bool :=
  m.keywords.any fun kw => includesStr normalized (normalizeKeyword kw)

/-- `getMappingForText`: `null` for an empty fragment, otherwise the
first mapping (in table order) one of whose case-folded keywords is
contained in the case-folded fragment. -/
def getMappingForText (table : List ResolvedMapping) (text : List Char) :
    Option ResolvedMapping :=
  if text = [] then none
  else table.find? (keywordHit (normalizeKeyword text))

/-- Spec-level matching: `m` has a keyword whose case-folded form is a
substring of the case-folded fragment. -/
def specMatches (m : ResolvedMapping) (text : List Char) : Prop :=
  ∃ kw ∈ m.keywords, isSubstring (toLowerStr kw) (toLowerStr text)

theorem keywordHit_iff (text : List Char) (m : ResolvedMapping) :
    keywordHit (normalizeKeyword text) m = true ↔ specMatches m text := by
  simp only [keywordHit, specMatches, List.any_eq_true, normalizeKeyword]
  constructor
  · rintro ⟨kw, hmem, hinc⟩
    exact ⟨kw, hmem, (includesStr_iff _ _).mp hinc⟩
  · rintro ⟨kw, hmem, hsub⟩
    exact ⟨kw, hmem, (includesStr_iff _ _).mpr hsub⟩

/-- `Array.prototype.find` characterized: it returns exactly the first
element satisfying the predicate. -/
theorem find?_first {α : Type} (p : α → Bool) :
    ∀ (l : List α) (a : α),
      l.find? p = some a ↔
        ∃ l1 l2, l = l1 ++ a :: l2 ∧ p a = true ∧ ∀ x ∈ l1, p x = false := by
  intro l
  induction l with
  | nil => simp [List.find?]
  | cons b t ih =>
    intro a
    by_cases hb : p b = true
    · have hstep : List.find? p (b :: t) = some b := by
        simp [List.find?_cons_of_pos, hb]
      rw [hstep, Option.some_inj]
      constructor
      · rintro rfl
        exact ⟨[], t, by simp, hb, by simp⟩
      · rintro ⟨l1, l2, hsplit, _, hfirst⟩
        cases l1 with
        | nil =>
          have h' : b = a ∧ t = l2 := by simpa using hsplit
          exact h'.1
        | cons x l1 =>
          exfalso
          have hx : x ∈ x :: l1 := List.mem_cons_self _ _
          have hbx : b = x := by
            have := congrArg (fun l => l.head?) hsplit
            simpa using this
          rw [hbx] at hb
          rw [hfirst x hx] at hb
          exact Bool.false_ne_true hb
    · have hb' : p b = false := by simpa using hb
      have hstep : List.find? p (b :: t) = List.find? p t := by
        simp [List.find?_cons_of_neg, hb']
      rw [hstep, ih]
      constructor
      · rintro ⟨l1, l2, hsplit, hpa, hfirst⟩
        refine ⟨b :: l1, l2, by simp [hsplit], hpa, ?_⟩
        intro x hx
        rcases List.mem_cons.mp hx with rfl | hx
        · exact hb'
        · exact hfirst x hx
      · rintro ⟨l1, l2, hsplit, hpa, hfirst⟩
        cases l1 with
        | nil =>
          exfalso
          have h' : b = a ∧ t = l2 := by simpa using hsplit
          rw [h'.1, hpa] at hb'
          simp at hb'
        | cons x l1 =>
          have hbx : b = x ∧ t = l1 ++ a :: l2 := by simpa using hsplit
          exact ⟨l1, l2, hbx.2, hpa, fun y hy => hfirst y (by simp [hy])⟩

/-! The "Scenario B" table of the specification:
`[{keywords:["a"]},{keywords:["ab"]}]` (it violates the external
containment invariant, but is constructed anyway). -/

/-- First mapping of Scenario B: keyword `"a"`. -/
def scenarioBFirst : ResolvedMapping :=
  { keywords := [['a']], file := [], filePath := [], volume := 1 }

/-- Second mapping of Scenario B: keyword `"ab"`. -/
def scenarioBSecond : ResolvedMapping :=
  { keywords := [['a', 'b']], file := [], filePath := [], volume := 1 }

/-- The Scenario B table. -/
def scenarioBTable : List ResolvedMapping := [scenarioBFirst, scenarioBSecond]

/-- C2. Matching selects the first mapping in table order that has a
case-folded keyword contained in the case-folded fragment; in
particular, on table `[{keywords:["a"]},{keywords:["ab"]}]` the
fragment `"ab"` selects the first mapping. -/
theorem getMappingForText_first_match :
    (∀ (table : List ResolvedMapping) (text : List Char) (m : ResolvedMapping),
        getMappingForText table text = some m ↔
          text ≠ [] ∧ ∃ pre post, table = pre ++ m :: post ∧ specMatches m text ∧
            ∀ m' ∈ pre, ¬ specMatches m' text) ∧
      getMappingForText scenarioBTable ['a', 'b'] = some scenarioBFirst := by
  constructor
  · intro table text m
    unfold getMappingForText
    by_cases htext : text = []
    · simp [htext]
    · rw [if_neg htext, find?_first]
      constructor
      · rintro ⟨pre, post, hsplit, hhit, hfirst⟩
        refine ⟨htext, pre, post, hsplit, (keywordHit_iff text m).mp hhit, ?_⟩
        intro m' hm' hspec
        have := (keywordHit_iff text m').mpr hspec
        rw [hfirst m' hm'] at this
        exact Bool.false_ne_true this
      · rintro ⟨_, pre, post, hsplit, hspec, hfirst⟩
        refine ⟨pre, post, hsplit, (keywordHit_iff text m).mpr hspec, ?_⟩
        intro m' hm'
        by_contra hne
        have : keywordHit (normalizeKeyword text) m' = true := by
          cases h : keywordHit (normalizeKeyword text) m' with
          | false => exact absurd h hne
          | true => rfl
        exact hfirst m' hm' ((keywordHit_iff text m').mp this)
  · rfl

/-- Witness for C2: instantiating the characterization at Scenario B
shows the first mapping is selected because it matches and nothing
precedes it. -/
theorem getMappingForText_first_match_witness :
    (['a', 'b'] : List Char) ≠ [] ∧
      ∃ pre post, scenarioBTable = pre ++ scenarioBFirst :: post ∧
        specMatches scenarioBFirst ['a', 'b'] ∧
        ∀ m' ∈ pre, ¬ specMatches m' ['a', 'b'] :=
  (getMappingForText_first_match.1 scenarioBTable ['a', 'b'] scenarioBFirst).mp
    getMappingForText_first_match.2

/-! ### Volume resolution (C3)

`reloadConfig` converts the configured percentage with
`Math.max(0, volPercent / 100)`: the lower bound is clamped to `0`,
but nothing clamps the upper bound, so a configured `300` resolves to
gain `3`, outside `[0, 2]`. -/

/-- Counterexample for C3 as stated: a configured volume of 300 percent
resolves to a gain factor of 3, which is not clamped into `[0, 2]`. -/
theorem resolveVolume_not_clamped_above :
    resolveVolume (some 300) = 3 ∧ ¬ resolveVolume (some 300) ≤ 2 := by
  constructor
  · unfold resolveVolume
    norm_num
  · unfold resolveVolume
    norm_num

/-- C3 (amended). The resolved gain factor is `max 0 (v / 100)`: it is
bounded below by 0 (a non-positive configured percentage yields gain 0,
so playback is silent), `0` maps to `0`, `200` maps to `2`, a missing
volume defaults to `100` percent (gain 1), and a non-negative
percentage maps linearly to `v / 100` — in particular percentages above
200 are NOT clamped and give a gain above 2. -/
theorem resolveVolume_spec :
    (∀ v : Option ℚ, 0 ≤ resolveVolume v) ∧
      resolveVolume (some 0) = 0 ∧
      resolveVolume (some 200) = 2 ∧
      resolveVolume none = 1 ∧
      (∀ x : ℚ, x ≤ 0 → resolveVolume (some x) = 0) ∧
      (∀ x : ℚ, 0 ≤ x → resolveVolume (some x) = x / 100) ∧
      (∀ x : ℚ, 200 < x → 2 < resolveVolume (some x)) := by
  refine ⟨fun v => le_max_left _ _, by unfold resolveVolume; norm_num,
    by unfold resolveVolume; norm_num, by unfold resolveVolume; norm_num,
    ?_, ?_, ?_⟩
  · intro x hx
    unfold resolveVolume
    simp only [Option.getD_some]
    rw [max_eq_left]
    linarith
  · intro x hx
    unfold resolveVolume
    simp only [Option.getD_some]
    rw [max_eq_right]
    positivity
  · intro x hx
    unfold resolveVolume
    simp only [Option.getD_some]
    have : 2 < x / 100 := by linarith
    exact lt_max_of_lt_right this

/-- Witness for C3's amended statement: at the concrete percentages 0,
200 and 300 the resolved gains are 0, 2 and a value above 2. -/
theorem resolveVolume_spec_witness :
    resolveVolume (some 0) = 0 ∧ resolveVolume (some 200) = 2 ∧
      2 < resolveVolume (some 300) :=
  ⟨resolveVolume_spec.2.1, resolveVolume_spec.2.2.1,
    resolveVolume_spec.2.2.2.2.2.2 300 (by norm_num)⟩

/-! ### Config reload (C4)

`reloadConfig` rereads `config.json` as a whole.  The parse outcome is
modelled as `Option AppConfig` (`none` when the file is missing or
`JSON.parse` throws).  On failure the catch block installs
`{ mappings: [], cooldownMs: 3000, lang: "ja-JP" }` and
`resolvedMappings = []`, discarding whatever was loaded before. -/

/-- The global configuration state (`appConfig`, `resolvedMappings`). -/
structure ConfigState where
  appConfig : AppConfig
  resolvedMappings : List ResolvedMapping
deriving DecidableEq

/-- `reloadConfig`: on a successful parse the table is replaced
wholesale by the resolved mappings; on failure (missing file or parse
error) the state becomes the empty-table default, independent of the
previous state. -/
def reloadConfig (soundsDir : List Char) (prev : ConfigState)
    (src : Option AppConfig) : ConfigState :=
  match src with
  | some parsed =>
      { appConfig := parsed
        resolvedMappings := parsed.mappings.map (resolveMapping soundsDir) }
  | none =>
      let _ := prev
      { appConfig :=
          { mappings := [], cooldownMs := 3000, lang := some ("ja-JP".toList) }
        resolvedMappings := [] }

/-- C4. A failed reload empties the table and installs the default
cooldown (3000 ms) and language ("ja-JP"); every match against the
resulting table returns no mapping; and the result does not depend on
the previous good state, which is not retained. -/
theorem reloadConfig_failure :
    ∀ (soundsDir : List Char) (prev : ConfigState),
      (reloadConfig soundsDir prev none).resolvedMappings = [] ∧
        (reloadConfig soundsDir prev none).appConfig.mappings = [] ∧
        (reloadConfig soundsDir prev none).appConfig.cooldownMs = 3000 ∧
        (reloadConfig soundsDir prev none).appConfig.lang = some ("ja-JP".toList) ∧
        (∀ text : List Char,
          getMappingForText (reloadConfig soundsDir prev none).resolvedMappings text
            = none) ∧
        (∀ prev' : ConfigState,
          reloadConfig soundsDir prev none = reloadConfig soundsDir prev' none) := by
  intro soundsDir prev
  refine ⟨rfl, rfl, rfl, rfl, ?_, fun _ => rfl⟩
  intro text
  unfold getMappingForText reloadConfig
  by_cases h : text = [] <;> simp [h]

/-! ### Playback scheduler (C5, C6)

The Discord `AudioPlayer` is either idle or playing one resource; the
bot keeps one global `playbackQueue`.  `startPlaybackIfIdle` returns
early when the player is busy, otherwise shifts the queue head and
plays it; it runs on every enqueue and on every player-idle event.
`enqueuePlayback` drops a request whose file does not exist (logged) —
the existence check happens at enqueue time; the dequeue path performs
no existence check at all.  The `played` field is a history variable
recording the order in which playback of items started; it changes
exactly when the embedded player starts an item. -/

/-- One entry of `playbackQueue`: `{ filePath, volume }`. -/
structure QueueItem where
  filePath : List Char
  volume : ℚ
deriving DecidableEq

/-- The audio player status: idle, or playing one resource. -/
inductive PlayerState where
  | idle
  | playing (item : QueueItem)
deriving DecidableEq

/-- Scheduler state: the FIFO queue, the player, and the history of
started items (ghost field used to state FIFO order). -/
structure SchedState where
  queue : List QueueItem
  player : PlayerState
  played : List QueueItem
deriving DecidableEq

/-- `startPlaybackIfIdle`: return if the player is not idle; shift the
queue; if an item came off, play it. -/
def startPlaybackIfIdle (s : SchedState) : SchedState :=
  match s.player with
  | .playing _ => s
  | .idle =>
    match s.queue with
    | [] => s
    | next :: rest =>
        { queue := rest, player := .playing next, played := s.played ++ [next] }

/-- `enqueuePlayback(filePath, volume)`: drop the request when
`fs.existsSync(filePath)` is false (logged "File not found"),
otherwise push it and call `startPlaybackIfIdle`. -/
def enqueuePlayback (fsHas : List Char → Bool) (filePath : List Char)
    (volume : ℚ) (s : SchedState) : SchedState :=
  if fsHas filePath then
    startPlaybackIfIdle { s with queue := s.queue ++ [⟨filePath, volume⟩] }
  else s

/-- The `AudioPlayerStatus.Idle` listener: the player has finished, so
it becomes idle and `startPlaybackIfIdle` runs. -/
def playerFinished (s : SchedState) : SchedState :=
  startPlaybackIfIdle { s with player := .idle }

/-- External events driving the scheduler.  Each carries the
`fs.existsSync` snapshot at the moment it happens; the dequeue path of
the code never consults it, which the semantics reflects. -/
inductive SchedEvent where
  | enqueue (fsHas : List Char → Bool) (filePath : List Char) (volume : ℚ)
  | finished (fsHas : List Char → Bool)

/-- One scheduler step. -/
def schedStep (s : SchedState) : SchedEvent → SchedState
  | .enqueue fsHas fp vol => enqueuePlayback fsHas fp vol s
  | .finished _ => playerFinished s

/-- Run the scheduler over a list of events. -/
def schedRun : SchedState → List SchedEvent → SchedState
  | s, [] => s
  | s, e :: es => schedRun (schedStep s e) es

/-- The initial state: empty queue, idle player. -/
def initSched : SchedState := { queue := [], player := .idle, played := [] }

/-- The requests of a trace that pass the enqueue-time existence check,
in enqueue order. -/
def acceptedItems : List SchedEvent → List QueueItem
  | [] => []
  | .enqueue fsHas fp vol :: es =>
      (if fsHas fp then [⟨fp, vol⟩] else []) ++ acceptedItems es
  | .finished _ :: es => acceptedItems es

theorem startPlaybackIfIdle_inv (s : SchedState) :
    (startPlaybackIfIdle s).played ++ (startPlaybackIfIdle s).queue =
      s.played ++ s.queue := by
  obtain ⟨q, p, pl⟩ := s
  cases p with
  | playing it => rfl
  | idle =>
    cases q with
    | nil => rfl
    | cons next rest => simp [startPlaybackIfIdle]

theorem schedStep_inv (s : SchedState) (e : SchedEvent) :
    (schedStep s e).played ++ (schedStep s e).queue =
      s.played ++ s.queue ++ acceptedItems [e] := by
  cases e with
  | enqueue fsHas fp vol =>
    simp only [schedStep, enqueuePlayback, acceptedItems]
    by_cases h : fsHas fp = true
    · rw [if_pos h, if_pos h, startPlaybackIfIdle_inv]
      simp
    · have h' : fsHas fp = false := by simpa using h
      rw [if_neg (by simp [h']), if_neg (by simp [h'])]
      simp
  | finished fsHas =>
    simp only [schedStep, playerFinished, acceptedItems]
    rw [startPlaybackIfIdle_inv]
    simp

theorem schedRun_inv :
    ∀ (tr : List SchedEvent) (s : SchedState),
      (schedRun s tr).played ++ (schedRun s tr).queue =
        s.played ++ s.queue ++ acceptedItems tr := by
  intro tr
  induction tr with
  | nil => intro s; simp [schedRun, acceptedItems]
  | cons e es ih =>
    intro s
    have hstep := schedStep_inv s e
    have hcons : acceptedItems (e :: es) = acceptedItems [e] ++ acceptedItems es := by
      cases e <;> simp [acceptedItems]
    calc (schedRun s (e :: es)).played ++ (schedRun s (e :: es)).queue
        = (schedRun (schedStep s e) es).played ++ (schedRun (schedStep s e) es).queue := rfl
      _ = (schedStep s e).played ++ (schedStep s e).queue ++ acceptedItems es := ih _
      _ = s.played ++ s.queue ++ (acceptedItems [e] ++ acceptedItems es) := by
          rw [hstep]; simp
      _ = s.played ++ s.queue ++ acceptedItems (e :: es) := by rw [hcons]

/-- C5. The playback scheduler serializes playback in FIFO order:
a busy player blocks any new start (`startPlaybackIfIdle` is the
identity when not idle); when idle, the item started is the queue
head, in push order; over any event trace from the initial state the
items whose playback started, followed by the items still queued, are
exactly the accepted requests in enqueue order; and a finish with a
non-empty queue starts the next item.  (At most one sound plays at a
time by construction: `PlayerState` holds at most one item.) -/
theorem playback_serialized_fifo :
    (∀ s : SchedState, s.player ≠ .idle → startPlaybackIfIdle s = s) ∧
      (∀ (s : SchedState) (item : QueueItem) (rest : List QueueItem),
        s.player = .idle → s.queue = item :: rest →
          startPlaybackIfIdle s =
            { queue := rest, player := .playing item,
              played := s.played ++ [item] }) ∧
      (∀ tr : List SchedEvent,
        (schedRun initSched tr).played ++ (schedRun initSched tr).queue =
          acceptedItems tr) ∧
      (∀ (s : SchedState) (item : QueueItem) (rest : List QueueItem),
        s.queue = item :: rest →
          (playerFinished s).player = .playing item) := by
  refine ⟨?_, ?_, ?_, ?_⟩
  · intro s hs
    unfold startPlaybackIfIdle
    cases hp : s.player with
    | playing _ => rfl
    | idle => exact absurd hp hs
  · intro s item rest hp hq
    unfold startPlaybackIfIdle
    rw [hp, hq]
  · intro tr
    have := schedRun_inv tr initSched
    simpa [initSched] using this
  · intro s item rest hq
    unfold playerFinished startPlaybackIfIdle
    simp [hq]

/-- Items and file-system snapshots for the concrete scheduler traces. -/
def itemA : QueueItem := ⟨"a.mp3".toList, 1⟩

/-- Second concrete item. -/
def itemB : QueueItem := ⟨"b.mp3".toList, 1⟩

/-- A file system in which every path exists. -/
def fsAll : List Char → Bool := fun _ => true

/-- A file system in which no path exists. -/
def fsNone : List Char → Bool := fun _ => false

/-- A trace in which `itemA` exists when enqueued but is missing at the
moment it is dequeued (the `finished` event carries `fsNone`). -/
def missingAtDequeueTrace : List SchedEvent :=
  [.enqueue fsAll itemB.filePath itemB.volume,
   .enqueue fsAll itemA.filePath itemA.volume,
   .finished fsNone]

/-- Counterexample for C6 as stated: `itemA` is queued behind `itemB`
and its resource is missing at dequeue time (the finish event's file
system has no file at all), yet the scheduler starts playing it rather
than skipping it — the existence check happens only at enqueue time. -/
theorem missing_at_dequeue_not_skipped :
    (schedRun initSched missingAtDequeueTrace).player = .playing itemA ∧
      fsNone itemA.filePath = false := ⟨rfl, rfl⟩

/-- C6 (amended). A request whose resource is missing at ENQUEUE time
is logged and dropped without entering the queue, leaving the state —
and hence the playback of every other request — unchanged; and the
dequeue path checks nothing: after a finish the player is idle exactly
when the queue is empty (a non-empty queue always starts its head), so
the queue never stalls. -/
theorem missing_resource_dropped_at_enqueue :
    (∀ (fsHas : List Char → Bool) (fp : List Char) (vol : ℚ) (s : SchedState),
        fsHas fp = false → enqueuePlayback fsHas fp vol s = s) ∧
      (∀ (fsHas : List Char → Bool) (fp : List Char) (vol : ℚ) (s : SchedState)
          (tr : List SchedEvent),
        fsHas fp = false →
          schedRun (enqueuePlayback fsHas fp vol s) tr = schedRun s tr) ∧
      (∀ s : SchedState, (playerFinished s).player = .idle ↔ s.queue = []) := by
  have hdrop : ∀ (fsHas : List Char → Bool) (fp : List Char) (vol : ℚ)
      (s : SchedState), fsHas fp = false → enqueuePlayback fsHas fp vol s = s := by
    intro fsHas fp vol s h
    unfold enqueuePlayback
    rw [if_neg (by simp [h])]
  refine ⟨hdrop, ?_, ?_⟩
  · intro fsHas fp vol s tr h
    rw [hdrop fsHas fp vol s h]
  · intro s
    unfold playerFinished startPlaybackIfIdle
    cases hq : s.queue with
    | nil => simp
    | cons next rest => simp

/-- Witness for C6's amended statement: a concrete missing request is
dropped, and the later trace behaves as if it never happened. -/
theorem missing_resource_dropped_at_enqueue_witness :
    enqueuePlayback fsNone itemA.filePath itemA.volume initSched = initSched ∧
      schedRun (enqueuePlayback fsNone itemA.filePath itemA.volume initSched)
          [.enqueue fsAll itemB.filePath itemB.volume] =
        schedRun initSched [.enqueue fsAll itemB.filePath itemB.volume] :=
  ⟨missing_resource_dropped_at_enqueue.1 fsNone itemA.filePath itemA.volume
      initSched rfl,
    missing_resource_dropped_at_enqueue.2.1 fsNone itemA.filePath itemA.volume
      initSched [.enqueue fsAll itemB.filePath itemB.volume] rfl⟩

/-! ### Trigger dispatcher (C1, C9)

The `onResult` callback inside `handleUserSpeaking` is, per recognized
fragment: read `now = Date.now()` and
`lastHit = userCooldowns.get(userId) || 0`; return when
`now - lastHit < cooldownMs`; look the fragment up in the table;
on a match, set `userCooldowns[userId] = now` first and then call
`enqueuePlayback`.  The returned `Bool` is whether the fragment was
accepted as a trigger. -/

/-- The configuration the dispatcher reads: the resolved table and the
cooldown window. -/
structure DispatchConfig where
  table : List ResolvedMapping
  cooldownMs : ℤ

/-- Global dispatcher state: `userCooldowns` and the scheduler. -/
structure BotState where
  cooldowns : List Char → Option ℤ
  sched : SchedState

/-- `userCooldowns.set(userId, now)`. -/
def setCooldown (m : List Char → Option ℤ) (userId : List Char) (t : ℤ) :
    List Char → Option ℤ :=
  fun v => if v = userId then some t else m v

/-- One fragment through the dispatcher: the pair of the new state and
whether a trigger was accepted. -/
def dispatchFragment (cfg : DispatchConfig) (fsHas : List Char → Bool)
    (s : BotState) (userId : List Char) (now : ℤ) (text : List Char) :
    BotState × Bool :=
  let lastHit := (s.cooldowns userId).getD 0
  if now - lastHit < cfg.cooldownMs then (s, false)
  else
    match getMappingForText cfg.table text with
    | none => (s, false)
    | some m =>
        ({ cooldowns := setCooldown s.cooldowns userId now,
           sched := enqueuePlayback fsHas m.filePath m.volume s.sched }, true)

/-- A recognized-fragment event: speaker, wall-clock time, text. -/
structure FragmentEvent where
  userId : List Char
  now : ℤ
  text : List Char

/-- Run the dispatcher over a fragment trace, collecting for each event
whether it was accepted as a trigger. -/
def dispatchRun (cfg : DispatchConfig) (fsHas : List Char → Bool) :
    BotState → List FragmentEvent → BotState × List (FragmentEvent × Bool)
  | s, [] => (s, [])
  | s, e :: es =>
      let r := dispatchFragment cfg fsHas s e.userId e.now e.text
      let rest := dispatchRun cfg fsHas r.1 es
      (rest.1, (e, r.2) :: rest.2)

theorem dispatchFragment_rejected_state (cfg : DispatchConfig)
    (fsHas : List Char → Bool) (s : BotState) (userId : List Char) (now : ℤ)
    (text : List Char)
    (h : (dispatchFragment cfg fsHas s userId now text).2 = false) :
    (dispatchFragment cfg fsHas s userId now text).1 = s := by
  unfold dispatchFragment at h ⊢
  by_cases hc : now - (s.cooldowns userId).getD 0 < cfg.cooldownMs
  · rw [if_pos hc]
  · rw [if_neg hc] at h ⊢
    cases hm : getMappingForText cfg.table text with
    | none => rfl
    | some m =>
      rw [hm] at h
      simp at h

theorem dispatchFragment_cooldown_reject (cfg : DispatchConfig)
    (fsHas : List Char → Bool) (s : BotState) (userId : List Char) (now : ℤ)
    (text : List Char) (T : ℤ) (hT : s.cooldowns userId = some T)
    (hwin : now < T + cfg.cooldownMs) :
    dispatchFragment cfg fsHas s userId now text = (s, false) := by
  unfold dispatchFragment
  rw [hT]
  have : now - (Option.getD (some T) 0) < cfg.cooldownMs := by
    simp only [Option.getD_some]
    omega
  rw [if_pos this]

theorem dispatchFragment_other_speaker (cfg : DispatchConfig)
    (fsHas : List Char → Bool) (s : BotState) (userId : List Char) (now : ℤ)
    (text : List Char) (P : List Char) (hne : P ≠ userId) :
    (dispatchFragment cfg fsHas s userId now text).1.cooldowns P =
      s.cooldowns P := by
  unfold dispatchFragment
  by_cases hc : now - (s.cooldowns userId).getD 0 < cfg.cooldownMs
  · rw [if_pos hc]
  · rw [if_neg hc]
    cases hm : getMappingForText cfg.table text with
    | none => rfl
    | some m => simp [setCooldown, hne]

theorem dispatchRun_cooldown_safety (cfg : DispatchConfig)
    (fsHas : List Char → Bool) (P : List Char) (T : ℤ) :
    ∀ (evs : List FragmentEvent) (s : BotState),
      s.cooldowns P = some T →
      (∀ e ∈ evs, e.userId = P → e.now < T + cfg.cooldownMs) →
      (dispatchRun cfg fsHas s evs).1.cooldowns P = some T ∧
        ∀ pr ∈ (dispatchRun cfg fsHas s evs).2, pr.1.userId = P →
          pr.2 = false := by
  intro evs
  induction evs with
  | nil =>
    intro s hT _
    exact ⟨hT, by intro pr hpr; simp [dispatchRun] at hpr⟩
  | cons e es ih =>
    intro s hT hwin
    by_cases hu : e.userId = P
    · have hreject : dispatchFragment cfg fsHas s e.userId e.now e.text =
          (s, false) := by
        apply dispatchFragment_cooldown_reject cfg fsHas s e.userId e.now e.text T
        · rw [hu]; exact hT
        · exact hwin e (by simp) hu
      have htail := ih s hT (fun x hx => hwin x (by simp [hx]))
      constructor
      · show (dispatchRun cfg fsHas
            (dispatchFragment cfg fsHas s e.userId e.now e.text).1 es).1.cooldowns P
            = some T
        rw [hreject]
        exact htail.1
      · intro pr hpr
        simp only [dispatchRun, hreject] at hpr
        rcases List.mem_cons.mp hpr with rfl | hmem
        · intro _; rfl
        · exact htail.2 pr hmem
    · have hkeep : (dispatchFragment cfg fsHas s e.userId e.now e.text).1.cooldowns P
          = some T := by
        rw [dispatchFragment_other_speaker cfg fsHas s e.userId e.now e.text P
          (Ne.symm hu)]
        exact hT
      have htail := ih (dispatchFragment cfg fsHas s e.userId e.now e.text).1 hkeep
        (fun x hx => hwin x (by simp [hx]))
      constructor
      · exact htail.1
      · intro pr hpr
        simp only [dispatchRun] at hpr
        rcases List.mem_cons.mp hpr with rfl | hmem
        · intro hup; exact absurd hup.symm (by simpa [eq_comm] using hu)
        · exact htail.2 pr hmem

/-- C1. Cooldown safety: only an accepted trigger updates the
speaker's cooldown entry (a rejected fragment leaves the whole state
unchanged); and once `lastTrigger[P] = T`, over any fragment trace
whose events for speaker `P` all happen strictly before
`T + cooldownMs`, no fragment of `P` is accepted as a trigger and
`lastTrigger[P]` still equals `T` afterwards. -/
theorem cooldown_window_no_retrigger :
    (∀ (cfg : DispatchConfig) (fsHas : List Char → Bool) (s : BotState)
        (userId : List Char) (now : ℤ) (text : List Char),
      (dispatchFragment cfg fsHas s userId now text).2 = false →
        (dispatchFragment cfg fsHas s userId now text).1 = s) ∧
      (∀ (cfg : DispatchConfig) (fsHas : List Char → Bool) (P : List Char)
          (T : ℤ) (evs : List FragmentEvent) (s : BotState),
        s.cooldowns P = some T →
        (∀ e ∈ evs, e.userId = P → e.now < T + cfg.cooldownMs) →
        (dispatchRun cfg fsHas s evs).1.cooldowns P = some T ∧
          ∀ pr ∈ (dispatchRun cfg fsHas s evs).2, pr.1.userId = P →
            pr.2 = false) :=
  ⟨dispatchFragment_rejected_state,
    fun cfg fsHas P T evs s => dispatchRun_cooldown_safety cfg fsHas P T evs s⟩

/-- A concrete dispatcher configuration for the witnesses: the Scenario
B table with a 1000 ms cooldown. -/
def witnessCfg : DispatchConfig := { table := scenarioBTable, cooldownMs := 1000 }

/-- A concrete bot state in which speaker "p1" triggered at time 0. -/
def witnessState : BotState :=
  { cooldowns := setCooldown (fun _ => none) ("p1".toList) 0, sched := initSched }

/-- A concrete fragment of speaker "p1" at time 500 (inside the window). -/
def witnessFragment : FragmentEvent :=
  { userId := "p1".toList, now := 500, text := ['a', 'b'] }

/-- Witness for C1: with `lastTrigger[p1] = 0` and `cooldownMs = 1000`,
the matching fragment "ab" of p1 at time 500 is rejected and the
cooldown entry is unchanged. -/
theorem cooldown_window_no_retrigger_witness :
    (dispatchRun witnessCfg fsAll witnessState [witnessFragment]).1.cooldowns
        ("p1".toList) = some 0 ∧
      ∀ pr ∈ (dispatchRun witnessCfg fsAll witnessState [witnessFragment]).2,
        pr.1.userId = "p1".toList → pr.2 = false :=
  cooldown_window_no_retrigger.2 witnessCfg fsAll ("p1".toList) 0
    [witnessFragment] witnessState rfl
    (by
      intro e he _
      simp only [List.mem_singleton] at he
      rw [he]
      norm_num [witnessFragment, witnessCfg])

/-- C9. A fragment that matches no mapping in the current table causes
no side effect: the dispatcher returns the state unchanged (cooldown
map and playback queue included) and accepts no trigger. -/
theorem no_match_no_side_effect (cfg : DispatchConfig)
    (fsHas : List Char → Bool) (s : BotState) (userId : List Char) (now : ℤ)
    (text : List Char) (h : getMappingForText cfg.table text = none) :
    dispatchFragment cfg fsHas s userId now text = (s, false) := by
  unfold dispatchFragment
  by_cases hc : now - (s.cooldowns userId).getD 0 < cfg.cooldownMs
  · rw [if_pos hc]
  · rw [if_neg hc, h]

/-- Witness for C9: a fragment matching nothing in the Scenario B table
leaves a concrete fresh state untouched. -/
theorem no_match_no_side_effect_witness :
    dispatchFragment witnessCfg fsAll
        { cooldowns := fun _ => none, sched := initSched }
        ("p2".toList) 5000 ("zzz".toList) =
      ({ cooldowns := fun _ => none, sched := initSched }, false) :=
  no_match_no_side_effect witnessCfg fsAll
    { cooldowns := fun _ => none, sched := initSched }
    ("p2".toList) 5000 ("zzz".toList) rfl

/-! ### Capture sessions (C8)

`subscribeReceiver` installs `receiver.speaking.on("start", userId =>
handleUserSpeaking(userId, connection))`, and `handleUserSpeaking`
unconditionally subscribes to the speaker and constructs a fresh Opus
decoder, a fresh FFmpeg resampler and a fresh recognition request on
EVERY invocation: the repository code keeps no per-speaker session
registry and has no branch that checks whether a session is already
active.  The embedding counts, per speaker, the
decode/resample/recognition pipelines created so far. -/

/-- Per-speaker count of created decode/resample/recognition
pipelines. -/
structure ReceiverState where
  pipelines : List Char → ℕ

/-- `handleUserSpeaking(userId, connection)`: a new pipeline is created
for the speaker, with no guard on existing ones. -/
def handleUserSpeaking (s : ReceiverState) (userId : List Char) : ReceiverState :=
  { pipelines := fun v => if v = userId then s.pipelines v + 1 else s.pipelines v }

/-- The speaking-start listener over a trace of start events. -/
def speakingStartRun : ReceiverState → List (List Char) → ReceiverState
  | s, [] => s
  | s, u :: us => speakingStartRun (handleUserSpeaking s u) us

/-- The empty receiver state. -/
def initReceiver : ReceiverState := { pipelines := fun _ => 0 }

/-- Counterexample for C8 as stated: two speaking-start events for the
same speaker create two pipelines — the second event arrives while a
session is active, is not ignored, and creates a second
decode/resample/recognition pipeline. -/
theorem duplicate_speaking_start_not_ignored :
    (speakingStartRun initReceiver ["p1".toList, "p1".toList]).pipelines
        ("p1".toList) = 2 ∧
      ¬ (speakingStartRun initReceiver ["p1".toList, "p1".toList]).pipelines
          ("p1".toList) ≤ 1 := by
  constructor
  · rfl
  · intro h
    have : (2 : ℕ) ≤ 1 := by
      calc (2 : ℕ) = (speakingStartRun initReceiver
            ["p1".toList, "p1".toList]).pipelines ("p1".toList) := rfl
        _ ≤ 1 := h
    omega

/-- C8 (amended). A speaking-start event is never ignored: every event
creates exactly one new decode/resample/recognition pipeline for its
speaker (even while one is active) and leaves other speakers' counts
unchanged; over a trace, a speaker's pipeline count grows by the
number of start events naming that speaker. -/
theorem speaking_start_always_creates_pipeline :
    (∀ (s : ReceiverState) (u : List Char),
        (handleUserSpeaking s u).pipelines u = s.pipelines u + 1 ∧
          ∀ v : List Char, v ≠ u →
            (handleUserSpeaking s u).pipelines v = s.pipelines v) ∧
      (∀ (starts : List (List Char)) (s : ReceiverState) (u : List Char),
        (speakingStartRun s starts).pipelines u =
          s.pipelines u + starts.count u) := by
  constructor
  · intro s u
    exact ⟨by simp [handleUserSpeaking], fun v hv => by simp [handleUserSpeaking, hv]⟩
  · intro starts
    induction starts with
    | nil => intro s u; simp [speakingStartRun]
    | cons x xs ih =>
      intro s u
      show (speakingStartRun (handleUserSpeaking s x) xs).pipelines u = _
      rw [ih]
      by_cases hx : u = x
      · subst hx
        simp [handleUserSpeaking, List.count_cons]
        omega
      · simp [handleUserSpeaking, hx, List.count_cons, Ne.symm hx]

/-- Witness for C8's amended statement: the concrete duplicate-start
trace yields pipeline count `0 + 2`. -/
theorem speaking_start_always_creates_pipeline_witness :
    (speakingStartRun initReceiver ["p1".toList, "p1".toList]).pipelines
        ("p1".toList) =
      initReceiver.pipelines ("p1".toList) +
        (["p1".toList, "p1".toList] : List (List Char)).count ("p1".toList) :=
  speaking_start_always_creates_pipeline.2 ["p1".toList, "p1".toList]
    initReceiver ("p1".toList)

/-! ### The read-only API server (C10)

`createApiServer`'s `GET /api/sounds/:filename` handler rejects with
status 400 a filename that is empty or contains "..", "/" or "\\";
only then does it join the name with `soundsDir`, probe existence and
stream the file. -/

/-- The observable outcome of the sound-file route. -/
inductive ApiResponse where
  | badRequest
  | notFound
  | serveFile (path : List Char)
deriving DecidableEq

/-- The traversal guard of the route:
`!filename || filename.includes("..") || filename.includes("/") ||
filename.includes("\\")`. -/
def invalidFilename (filename : List Char) : Bool :=
  decide (filename = []) || includesStr filename ['.', '.'] ||
    includesStr filename ['/'] || includesStr filename ['\\']

/-- The `GET /api/sounds/:filename` handler: 400 on an invalid name,
404 when the joined path does not exist, otherwise the file at
`path.join(soundsDir, filename)` is streamed. -/
def handleSoundRequest (soundsDir : List Char) (fsHas : List Char → Bool)
    (filename : List Char) : ApiResponse :=
  if invalidFilename filename then .badRequest
  else
    let filePath := pathJoin soundsDir filename
    if fsHas filePath then .serveFile filePath else .notFound

/-- C10. An empty filename or one containing "..", "/" or "\\" is
answered with 400 and no file is opened (the response is never
`serveFile`, and the handler never consults the file system on that
path); conversely every served path is exactly `soundsDir` joined with
the requested name, which is non-empty and contains no "..", no "/"
and no "\\" — a single traversal-free path component. -/
theorem sound_route_traversal_safe :
    (∀ (soundsDir : List Char) (fsHas : List Char → Bool) (filename : List Char),
        (filename = [] ∨ isSubstring ['.', '.'] filename ∨
            isSubstring ['/'] filename ∨ isSubstring ['\\'] filename) →
          handleSoundRequest soundsDir fsHas filename = .badRequest) ∧
      (∀ (soundsDir : List Char) (fsHas : List Char → Bool)
          (filename p : List Char),
        handleSoundRequest soundsDir fsHas filename = .serveFile p →
          p = pathJoin soundsDir filename ∧ filename ≠ [] ∧
            ¬ isSubstring ['.', '.'] filename ∧
            ¬ isSubstring ['/'] filename ∧ ¬ isSubstring ['\\'] filename) := by
  have hinv : ∀ filename : List Char,
      invalidFilename filename = true ↔
        (filename = [] ∨ isSubstring ['.', '.'] filename ∨
          isSubstring ['/'] filename ∨ isSubstring ['\\'] filename) := by
    intro filename
    simp only [invalidFilename, Bool.or_eq_true, decide_eq_true_eq,
      includesStr_iff]
    tauto
  constructor
  · intro soundsDir fsHas filename h
    unfold handleSoundRequest
    rw [if_pos ((hinv filename).mpr h)]
  · intro soundsDir fsHas filename p h
    unfold handleSoundRequest at h
    by_cases hbad : invalidFilename filename = true
    · rw [if_pos hbad] at h
      exact absurd h (by simp)
    · rw [if_neg hbad] at h
      have hgood := (hinv filename).not.mp hbad
      push_neg at hgood
      by_cases hfs : fsHas (pathJoin soundsDir filename) = true
      · rw [if_pos hfs] at h
        have hp : p = pathJoin soundsDir filename := by
          cases h
          rfl
        exact ⟨hp, hgood.1, hgood.2.1, hgood.2.2.1, hgood.2.2.2⟩
      · rw [if_neg hfs] at h
        exact absurd h (by simp)

/-- Witness for C10: the traversal attempt "../secret" is answered 400,
and the legitimate name "a.mp3" is served from the sounds directory. -/
theorem sound_route_traversal_safe_witness :
    handleSoundRequest ("sounds".toList) fsAll ("../secret".toList) =
        .badRequest ∧
      ("a.mp3".toList : List Char) ≠ [] ∧
        ¬ isSubstring ['.', '.'] ("a.mp3".toList) ∧
        ¬ isSubstring ['/'] ("a.mp3".toList) ∧
        ¬ isSubstring ['\\'] ("a.mp3".toList) :=
  ⟨sound_route_traversal_safe.1 ("sounds".toList) fsAll ("../secret".toList)
      (Or.inr (Or.inl (by decide))),
    ((sound_route_traversal_safe.2 ("sounds".toList) fsAll ("a.mp3".toList)
        (pathJoin ("sounds".toList) ("a.mp3".toList))) (by rfl)).2⟩

/-! ### Recognition client (C7)

`resolveSpeechStreamWithGoogle` reads the HTTP response as a stream of
chunks.  Each `data` event appends the chunk to a buffer, splits the
buffer on `"\n"`, keeps the final (incomplete) piece as the new buffer
and processes each completed line: skip a blank line, `JSON.parse` it
(parse failures ignored), and when `json.result` is a non-empty array
whose first element has a non-empty `alternative` array with a truthy
`transcript`, emit that transcript.  On stream end the leftover buffer
is dropped unparsed.  `JSON.parse` plus the field accesses are the
`parse` parameter, returning `none` when parsing throws. -/

/-- One entry of an `alternative` array; `transcript` may be absent. -/
structure RecogAlt where
  transcript : Option (List Char)

/-- One entry of a `result` array; `alternative` may be absent. -/
structure RecogSeg where
  alternative : Option (List RecogAlt)

/-- A parsed response line; `result` may be absent. -/
structure RecogLine where
  result : Option (List RecogSeg)

/-- `!line.trim()`: the line is entirely whitespace. -/
def isBlankLine (l : List Char) : Bool := l.all fun c => c.isWhitespace

/-- Processing of one completed line: the emitted transcript, if any.
Only `result[0]` and `alternative[0]` are inspected, and a falsy
(absent or empty) transcript emits nothing. -/
def lineEmit (parse : List Char → Option RecogLine) (line : List Char) :
    Option (List Char) :=
  if isBlankLine line then none
  else
    match parse line with
    | none => none
    | some j =>
      match j.result with
      | some (res :: _) =>
        match res.alternative with
        | some (alt :: _) =>
          match alt.transcript with
          | some t => if t = [] then none else some t
          | none => none
        | _ => none
      | _ => none

/-- `buffer.split("\n")`: always non-empty; the last piece is the text
after the final newline. -/
def splitNl : List Char → List (List Char)
  | [] => [[]]
  | c :: rest =>
    if c = '\n' then [] :: splitNl rest
    else
      match splitNl rest with
      | [] => [[c]]
      | h :: t => (c :: h) :: t

/-- `lines.pop() || ""`: the last piece of a split. -/
def lastD : List (List Char) → List Char
  | [] => []
  | [p] => p
  | _ :: p :: rest => lastD (p :: rest)

/-- The chunk loop of `resolveSpeechStreamWithGoogle`, carrying the
buffer: split `buffer ++ chunk`, emit from every completed line, keep
the last piece, and drop the final buffer at stream end. -/
def processChunksAux (parse : List Char → Option RecogLine) :
    List Char → List (List Char) → List (List Char)
  | _, [] => []
  | buffer, chunk :: rest =>
    let pieces := splitNl (buffer ++ chunk)
    pieces.dropLast.filterMap (lineEmit parse) ++
      processChunksAux parse (lastD pieces) rest

/-- The transcripts emitted over a whole response stream. -/
def processChunks (parse : List Char → Option RecogLine)
    (chunks : List (List Char)) : List (List Char) :=
  processChunksAux parse [] chunks

theorem splitNl_ne_nil : ∀ l : List Char, splitNl l ≠ [] := by
  intro l
  cases l with
  | nil => simp [splitNl]
  | cons c rest =>
    unfold splitNl
    by_cases hc : c = '\n'
    · simp [hc]
    · rw [if_neg hc]
      cases splitNl rest with
      | nil => simp
      | cons h t => simp

theorem splitNl_cons_nl (z : List Char) : splitNl ('\n' :: z) = [] :: splitNl z := by
  simp [splitNl]

theorem splitNl_cons_ne (c : Char) (hc : c ≠ '\n') (z : List Char)
    (H : List Char) (T : List (List Char)) (hz : splitNl z = H :: T) :
    splitNl (c :: z) = (c :: H) :: T := by
  unfold splitNl
  rw [if_neg hc, hz]

theorem splitNl_no_newline : ∀ l : List Char, '\n' ∉ l → splitNl l = [l] := by
  intro l
  induction l with
  | nil => intro _; rfl
  | cons c rest ih =>
    intro h
    have hc : c ≠ '\n' := fun hcc => h (by simp [hcc])
    have hrest : '\n' ∉ rest := fun hr => h (by simp [hr])
    exact splitNl_cons_ne c hc rest rest [] (ih hrest)

theorem lastD_cons (a : List Char) (l : List (List Char)) (hl : l ≠ []) :
    lastD (a :: l) = lastD l := by
  cases l with
  | nil => exact absurd rfl hl
  | cons p rest => rfl

theorem lastD_no_newline : ∀ l : List Char, '\n' ∉ lastD (splitNl l) := by
  intro l
  induction l with
  | nil => simp [splitNl, lastD]
  | cons c rest ih =>
    by_cases hc : c = '\n'
    · subst hc
      rw [splitNl_cons_nl, lastD_cons [] (splitNl rest) (splitNl_ne_nil rest)]
      exact ih
    · cases hz : splitNl rest with
      | nil => exact absurd hz (splitNl_ne_nil rest)
      | cons H T =>
        rw [splitNl_cons_ne c hc rest H T hz]
        cases T with
        | nil =>
          rw [hz] at ih
          have hH : '\n' ∉ H := by simpa [lastD] using ih
          have hred : lastD [c :: H] = c :: H := rfl
          rw [hred]
          simp only [List.mem_cons]
          rintro (h1 | h2)
          · exact hc h1.symm
          · exact hH h2
        | cons H2 T2 =>
          rw [lastD_cons (c :: H) (H2 :: T2) (by simp)]
          rw [hz] at ih
          rw [lastD_cons H (H2 :: T2) (by simp)] at ih
          exact ih

theorem splitNl_append : ∀ x y : List Char,
    splitNl (x ++ y) = (splitNl x).dropLast ++ splitNl (lastD (splitNl x) ++ y) := by
  intro x
  induction x with
  | nil => intro y; simp [splitNl, lastD]
  | cons c t ih =>
    intro y
    by_cases hc : c = '\n'
    · subst hc
      rw [List.cons_append, splitNl_cons_nl, splitNl_cons_nl, ih y,
        lastD_cons [] (splitNl t) (splitNl_ne_nil t),
        List.dropLast_cons_of_ne_nil (splitNl_ne_nil t)]
      simp
    · cases hz : splitNl t with
      | nil => exact absurd hz (splitNl_ne_nil t)
      | cons H T =>
        have hlast : lastD (splitNl t) = lastD (H :: T) := by rw [hz]
        cases T with
        | nil =>
          have h1 : splitNl (c :: t) = [c :: H] :=
            splitNl_cons_ne c hc t H [] hz
          have h2 : splitNl (t ++ y) = splitNl (H ++ y) := by
            rw [ih y, hz]
            simp [lastD]
          rw [List.cons_append]
          rw [h1]
          simp only [List.dropLast_single, List.nil_append]
          have h4 : lastD [c :: H] = c :: H := rfl
          rw [h4]
          cases hw : splitNl (H ++ y) with
          | nil => exact absurd hw (splitNl_ne_nil _)
          | cons W U =>
            rw [show (c :: H) ++ y = c :: (H ++ y) by simp]
            rw [splitNl_cons_ne c hc (H ++ y) W U hw,
              splitNl_cons_ne c hc (t ++ y) W U (by rw [h2, hw])]
        | cons H2 T2 =>
          have h1 : splitNl (c :: t) = (c :: H) :: H2 :: T2 :=
            splitNl_cons_ne c hc t H (H2 :: T2) hz
          cases hw : splitNl (t ++ y) with
          | nil => exact absurd hw (splitNl_ne_nil _)
          | cons W U =>
            have h2 := ih y
            rw [hz, hw] at h2
            have hdl : (H :: H2 :: T2).dropLast = H :: (H2 :: T2).dropLast := by
              simp
            have hl : lastD (H :: H2 :: T2) = lastD (H2 :: T2) :=
              lastD_cons H (H2 :: T2) (by simp)
            rw [hdl, hl, List.cons_append] at h2
            injection h2 with hW hU
            rw [List.cons_append, splitNl_cons_ne c hc (t ++ y) W U hw, h1]
            have hdl2 : ((c :: H) :: H2 :: T2).dropLast =
                (c :: H) :: (H2 :: T2).dropLast := by simp
            have hl2 : lastD ((c :: H) :: H2 :: T2) = lastD (H2 :: T2) :=
              lastD_cons (c :: H) (H2 :: T2) (by simp)
            rw [hdl2, hl2, List.cons_append, hW, hU]

theorem processChunksAux_eq (parse : List Char → Option RecogLine) :
    ∀ (chunks : List (List Char)) (buf : List Char), '\n' ∉ buf →
      processChunksAux parse buf chunks =
        (splitNl (buf ++ chunks.flatten)).dropLast.filterMap (lineEmit parse) := by
  intro chunks
  induction chunks with
  | nil =>
    intro buf hbuf
    rw [show processChunksAux parse buf [] = [] from rfl]
    rw [List.flatten_nil, List.append_nil, splitNl_no_newline buf hbuf]
    rfl
  | cons c cs ih =>
    intro buf hbuf
    show (splitNl (buf ++ c)).dropLast.filterMap (lineEmit parse) ++
        processChunksAux parse (lastD (splitNl (buf ++ c))) cs = _
    rw [ih (lastD (splitNl (buf ++ c))) (lastD_no_newline (buf ++ c))]
    rw [List.flatten_cons, show buf ++ (c ++ cs.flatten) = (buf ++ c) ++ cs.flatten by simp]
    rw [splitNl_append (buf ++ c) cs.flatten]
    rw [List.dropLast_append_of_ne_nil _ (splitNl_ne_nil _)]
    rw [List.filterMap_append]

/-- C7 (amended). The client emits transcripts only from COMPLETE,
newline-terminated lines: over any chunked response the emitted
fragments are exactly, in order, the emissions of the lines strictly
before the final newline of the concatenated response (whatever stands
after the last newline — in particular a single JSON object not
terminated by a newline — is never parsed); and a parsed line whose
`result` is absent or an empty array emits no fragment. -/
theorem recognizer_emits_complete_lines :
    (∀ (parse : List Char → Option RecogLine) (chunks : List (List Char)),
        processChunks parse chunks =
          (splitNl chunks.flatten).dropLast.filterMap (lineEmit parse)) ∧
      (∀ (parse : List Char → Option RecogLine) (line : List Char)
          (j : RecogLine),
        parse line = some j → j.result = none ∨ j.result = some [] →
          lineEmit parse line = none) := by
  constructor
  · intro parse chunks
    unfold processChunks
    rw [processChunksAux_eq parse chunks [] (by simp)]
    rfl
  · intro parse line j hparse hres
    unfold lineEmit
    by_cases hb : isBlankLine line = true
    · rw [if_pos hb]
    · rw [if_neg hb, hparse]
      rcases hres with h | h <;> simp [h]

/-- The single JSON object of the counterexample, as the recognizer
would send it (no trailing newline):
`\x7b"result":[\x7b"alternative":[\x7b"transcript":"hi"\x7d]\x7d]\x7d`. -/
def singleObjectChunk : List Char :=
  "\x7b\"result\":[\x7b\"alternative\":[\x7b\"transcript\":\"hi\"\x7d]\x7d]\x7d".toList

/-- The parse of that object: one segment, one alternative,
transcript "hi". -/
def singleObjectLine : RecogLine :=
  ⟨some [⟨some [⟨some ("hi".toList)⟩]⟩]⟩

/-- `JSON.parse` plus field access for the counterexample response. -/
def parseSingleObject : List Char → Option RecogLine :=
  fun l => if l = singleObjectChunk then some singleObjectLine else none

/-- Counterexample for C7 as stated: a response delivered as a single
JSON object with no trailing newline carries a recognized segment
whose first alternative's transcript is "hi" (processing the text as a
completed line would emit it), yet the client emits nothing, because
the object never leaves the line buffer. -/
theorem single_object_no_newline_emits_nothing :
    processChunks parseSingleObject [singleObjectChunk] = [] ∧
      lineEmit parseSingleObject singleObjectChunk = some ("hi".toList) :=
  ⟨rfl, rfl⟩

/-- Witness for C7's amended statement: the same object followed by a
newline is a complete line and its transcript is emitted. -/
theorem recognizer_emits_complete_lines_witness :
    processChunks parseSingleObject [singleObjectChunk ++ ['\n']] =
        (splitNl (List.flatten [singleObjectChunk ++ ['\n']])).dropLast.filterMap
          (lineEmit parseSingleObject) ∧
      processChunks parseSingleObject [singleObjectChunk ++ ['\n']] =
        ["hi".toList] :=
  ⟨recognizer_emits_complete_lines.1 parseSingleObject
      [singleObjectChunk ++ ['\n']], rfl⟩

/-- A fully successful trace used as the FIFO witness. -/
def fifoDemoTrace : List SchedEvent :=
  [.enqueue fsAll itemA.filePath itemA.volume,
   .enqueue fsAll itemB.filePath itemB.volume,
   .finished fsAll, .finished fsAll]

/-- Witness for C5: on a concrete trace the started items followed by
the remaining queue equal the accepted requests in enqueue order. -/
theorem playback_serialized_fifo_witness :
    (schedRun initSched fifoDemoTrace).played ++
        (schedRun initSched fifoDemoTrace).queue =
      acceptedItems fifoDemoTrace :=
  playback_serialized_fifo.2.2.1 fifoDemoTrace

end SoundBot
